import Mathlib

/-!
Verification of the interactive account-picker of `beancount.ingest.interactive`
(`guesser.py`, `interactive.py`, `extract.py`) against its specification.

Python dictionaries are modelled as insertion-ordered association lists
(`List (K × V)`); Python floats are modelled as exact rationals `ℚ`
(every numeric scenario in the specification is exactly representable);
Python operations that can raise are modelled as `Option`/`Except`.
Account names (colon-delimited paths) are modelled as `List Char`, so that
splitting a path on `:` is `List.splitOn` on its characters.
-/

namespace BeanPick

/-- An account name (a Python `str` holding a colon-delimited path), viewed as
its character list. -/
abbrev AccName := List Char

/-- Python dict presence test `key in d` on an association list. -/
def hasKey {K V : Type} [DecidableEq K] (l : List (K × V)) (key : K) : Bool :=
  l.any (fun kv => decide (kv.1 = key))

/-- Python `d.get(key)` / `d[key]` on an association list. -/
def lookup? {K V : Type} [DecidableEq K] (l : List (K × V)) (key : K) : Option V :=
  (l.find? (fun kv => decide (kv.1 = key))).map (fun kv => kv.2)

/-- `d.get(key)` with a default, used to read accumulated vote tallies. -/
def lookupD {K V : Type} [DecidableEq K] (l : List (K × V)) (key : K) (d : V) : V :=
  (lookup? l key).getD d

/-- `guesser.increment_dict(target_dict, key, increment)`:
`target = target_dict.setdefault(key, 0); target_dict[key] = target + increment`.
A present key keeps its position and gets its value bumped; an absent key is
appended with value `0 + increment = increment`. -/
def increment_dict {K V : Type} [DecidableEq K] [Add V] (l : List (K × V)) (key : K) (inc : V) :
    List (K × V) :=
  if hasKey l key then
    l.map (fun kv => if kv.1 = key then (kv.1, kv.2 + inc) else kv)
  else
    l ++ [(key, inc)]

/-- Python `s.split()` (no separator): split on runs of whitespace, dropping
empty pieces, phrased over the character list of the string. -/
def pySplitWs (s : String) : List String :=
  ((s.toList.splitOnP (fun c => c.isWhitespace)).map (fun l => String.mk l)).filter
    (fun t => decide (t ≠ ""))

/-- `guesser.EXCLUSIONS`: metadata keys never used as classification terms
(`filename`, `lineno`, and beancount's automatically-computed metadata keys). -/
def EXCLUSIONS : List String :=
  ["filename", "lineno", "__automatic__", "__residual__", "__tolerances__"]

/-- One leg of a transaction; only the `account` field is read or written by
this system, the remaining fields of beancount's `Posting` are irrelevant to
every claim and omitted. -/
structure Posting where
  account : AccName
  deriving DecidableEq, Repr

/-- A beancount transaction as consumed by the picker: narration, optional
payee, metadata mapping, flag, date and postings.  Dates are abstracted to
`Nat` (only their order matters); metadata values reaching the tokenizer are
strings. -/
structure Txn where
  date : Nat
  flag : String
  payee : Option String
  narration : String
  meta : List (String × String)
  postings : List Posting
  deriving DecidableEq, Repr

/-- `guesser.item_gen(txn)`: narration words, then payee words (`AttributeError`
on a missing payee yields the empty sequence), then metadata values whose key
is not excluded, in mapping order. -/
def item_gen (txn : Txn) : List String :=
  pySplitWs txn.narration ++
    (match txn.payee with
     | some p => pySplitWs p
     | none => []) ++
    (txn.meta.filter (fun kv => decide (kv.1 ∉ EXCLUSIONS))).map (fun kv => kv.2)

/-- `guesser.GuessItem`: the per-term tally `account_dict` of
account → occurrence count. -/
structure GuessItem where
  account_dict : List (AccName × Nat)
  deriving DecidableEq, Repr

/-- `GuessItem()`: fresh empty tally. -/
def GuessItem.new : GuessItem := ⟨[]⟩

/-- `GuessItem.add(account)`: `increment_dict(self.account_dict, account, 1)`. -/
def GuessItem.add (g : GuessItem) (account : AccName) : GuessItem :=
  ⟨increment_dict g.account_dict account 1⟩

/-- Total number of recordings of the term: `sum(self.account_dict.values())`. -/
def GuessItem.total (g : GuessItem) : Nat :=
  (g.account_dict.map (fun kv => kv.2)).sum

/-- `GuessItem.get_weight(selected_account)`:
`selected_votes / sum(values)` squared; `none` models the `KeyError` on an
unrecorded account. -/
def GuessItem.get_weight (g : GuessItem) (selected_account : AccName) : Option ℚ :=
  match lookup? g.account_dict selected_account with
  | none => none
  | some selected_votes =>
    let weight : ℚ := (selected_votes : ℚ) / (g.total : ℚ)
    some (weight * weight)

/-- `GuessItem.get()`: `{account: self.get_weight(account) for account in
self.account_dict}`, in key order. -/
def GuessItem.get (g : GuessItem) : List (AccName × ℚ) :=
  g.account_dict.filterMap (fun kv => (g.get_weight kv.1).map (fun w => (kv.1, w)))

/-- `guesser.AccountGuess`: the term → `GuessItem` mapping `save_dict`. -/
structure AccountGuess where
  save_dict : List (String × GuessItem)
  deriving DecidableEq, Repr

/-- `AccountGuess()`: fresh empty model. -/
def AccountGuess.new : AccountGuess := ⟨[]⟩

/-- One step of `AccountGuess.add_txn`:
`guess_item = self.save_dict.setdefault(item, GuessItem()); guess_item.add(account_name)`. -/
def addToItem (l : List (String × GuessItem)) (item : String) (account : AccName) :
    List (String × GuessItem) :=
  let l2 := if hasKey l item then l else l ++ [(item, GuessItem.new)]
  l2.map (fun kv => if kv.1 = item then (kv.1, kv.2.add account) else kv)

/-- `AccountGuess.add_txn(txn, account_name)`: record the account against every
term generated from the transaction. -/
def AccountGuess.add_txn (ag : AccountGuess) (txn : Txn) (account_name : AccName) :
    AccountGuess :=
  ⟨(item_gen txn).foldl (fun l item => addToItem l item account_name) ag.save_dict⟩

/-- The vote tally built by `AccountGuess.get_account`: for every term with a
known `GuessItem`, for every `(acc, itemvote)` of its weights,
`increment_dict(votes, acc, itemvote * len(item))`. -/
def AccountGuess.computeVotes (ag : AccountGuess) (txn : Txn) : List (AccName × ℚ) :=
  (item_gen txn).foldl
    (fun votes item =>
      match ag.save_dict.find? (fun kv => decide (kv.1 = item)) with
      | none => votes
      | some kv =>
        kv.2.get.foldl
          (fun vs aw => increment_dict vs aw.1 (aw.2 * (item.length : ℚ))) votes)
    []

/-- One comparison step of Python `max`: the candidate replaces the champion
only when its value is strictly greater. -/
def pickMax (best p : AccName × ℚ) : AccName × ℚ :=
  if best.2 < p.2 then p else best

/-- Python `max(votes, key=votes.get)` on an insertion-ordered dict: the first
key attaining the maximal value (a later key replaces the champion only on a
strictly greater value). -/
def pyMaxKey (votes : List (AccName × ℚ)) : Option AccName :=
  match votes with
  | [] => none
  | kv :: rest => some ((rest.foldl pickMax kv).1)

/-- `AccountGuess.get_account(txn)`: maximal-vote account, or `None` when the
tally is empty. -/
def AccountGuess.get_account (ag : AccountGuess) (txn : Txn) : Option AccName :=
  pyMaxKey (ag.computeVotes txn)

/-! ## The account tree and `interactive.AccountSelector`

The nested dict `accounts_dict` maps a segment name either to a child dict or,
under the reserved key `__root__`, to the terminal marker.  `ATree` keeps the
marker as a `Bool` and the non-marker bindings (what `no_root` returns) as an
ordered child list, so `no_root(d)` is `ATree.children` and `is_root(d)` is
`ATree.isRoot`. -/

/-- The nested account dict: terminal marker plus ordered named children. -/
inductive ATree where
  | node : Bool → List (AccName × ATree) → ATree

instance : Inhabited ATree := ⟨.node false []⟩

/-- `interactive.is_root(nest_dict)`: the `__root__` marker is present and truthy. -/
def ATree.isRoot : ATree → Bool
  | .node r _ => r

/-- `interactive.no_root(nest_dict)`: the bindings other than the marker. -/
def ATree.children : ATree → List (AccName × ATree)
  | .node _ cs => cs

/-- Python list subscription `l[i]` with an `int` index: nonnegative indices
from the front, negative indices from the back, `None` for the `IndexError`. -/
def pyGet {α : Type} (l : List α) (i : ℤ) : Option α :=
  if 0 ≤ i then l.get? i.toNat
  else if i.natAbs ≤ l.length then l.get? (l.length - i.natAbs)
  else none

/-- Python `list.index(x)` (restricted to a decidable test): index of the first
matching element, `None` for the `ValueError`. -/
def pyIndex {α : Type} (p : α → Bool) : List α → Option Nat
  | [] => none
  | a :: as => if p a then some 0 else (pyIndex p as).map (fun n => n + 1)

/-- `AccountSelector._get_nested_dict_from_selected(selected)`: walk the child
lists (`list(no_root(nest_dict).values())[idx]`) along the cursor. -/
def nestedFrom (t : ATree) : List ℤ → Option ATree
  | [] => some t
  | i :: rest =>
    match pyGet t.children i with
    | some kv => nestedFrom kv.2 rest
    | none => none

/-- The segment names collected by `AccountSelector._get_account`:
`keys[idx]` at each level, descending through `values()[idx]`. -/
def getNames (t : ATree) : List ℤ → Option (List AccName)
  | [] => some []
  | i :: rest =>
    match pyGet t.children i with
    | some kv => (getNames kv.2 rest).map (fun ns => kv.1 :: ns)
    | none => none

/-- `AccountSelector._get_account` / the `account` property:
`':'.join(names)` over the collected segment names. -/
def getAccount (t : ATree) (selected : List ℤ) : Option AccName :=
  (getNames t selected).map (fun ns => [':'].intercalate ns)

/-- The loop body of `AccountSelector.set_account`: for each path segment,
`selected.append(list(no_root(nest_dict)).index(part))` and descend via
`nest_dict[part]` (the first binding with that name). -/
def setAccountGo (t : ATree) : List AccName → Option (List ℤ)
  | [] => some []
  | part :: rest =>
    match pyIndex (fun kv : AccName × ATree => decide (kv.1 = part)) t.children with
    | none => none
    | some idx =>
      match t.children.get? idx with
      | some kv => (setAccountGo kv.2 rest).map (fun sel => (idx : ℤ) :: sel)
      | none => none

/-- `AccountSelector.set_account(account)`: split the path on `:` and resolve
each segment to its sibling index. -/
def setAccount (t : ATree) (account : AccName) : Option (List ℤ) :=
  setAccountGo t (account.splitOn ':')

/-- `interactive.AccountSelector`: the tree plus the cursor `selected`. -/
structure Selector where
  accounts_dict : ATree
  selected : List ℤ

/-- `AccountSelector.reset()`: `self.selected = [0]` (also run by `__init__`). -/
def Selector.reset (s : Selector) : Selector :=
  { s with selected := [0] }

/-- `AccountSelector.prev_account()`:
`self.selected[-1] = max(self.selected[-1] - 1, 0)`; fails only when the cursor
is empty (`IndexError`). -/
def Selector.prev_account (s : Selector) : Option Selector :=
  match s.selected.getLast? with
  | none => none
  | some last => some { s with selected := s.selected.dropLast ++ [max (last - 1) 0] }

/-- `AccountSelector.next_account()`: clamp the incremented last index to
`len(no_root(dict at selected[:-1])) - 1`. -/
def Selector.next_account (s : Selector) : Option Selector :=
  match nestedFrom s.accounts_dict s.selected.dropLast with
  | none => none
  | some t =>
    match s.selected.getLast? with
    | none => none
    | some last =>
      some { s with
        selected := s.selected.dropLast ++ [min (last + 1) ((t.children.length : ℤ) - 1)] }

/-- `AccountSelector.prev_level()`: pop the last index when the depth exceeds 1. -/
def Selector.prev_level (s : Selector) : Selector :=
  if 1 < s.selected.length then { s with selected := s.selected.dropLast } else s

/-- `AccountSelector.next_level()`: append index 0 when the node at the cursor
has non-marker children. -/
def Selector.next_level (s : Selector) : Option Selector :=
  match nestedFrom s.accounts_dict s.selected with
  | none => none
  | some t =>
    some (if t.children.isEmpty then s else { s with selected := s.selected ++ [0] })

/-- The four navigation keys of the review loop (`w`, `s`, `a`, `d`). -/
inductive NavCmd where
  | prevAccount | nextAccount | prevLevel | nextLevel
  deriving DecidableEq, Repr

/-- Dispatch one navigation command. -/
def Selector.step (s : Selector) : NavCmd → Option Selector
  | .prevAccount => s.prev_account
  | .nextAccount => s.next_account
  | .prevLevel => some s.prev_level
  | .nextLevel => s.next_level

/-- Run a sequence of navigation commands. -/
def Selector.run (s : Selector) (cmds : List NavCmd) : Option Selector :=
  cmds.foldlM Selector.step s

/-- A cursor is valid when each index is a genuine (nonnegative, strictly less
than the sibling count) position among the non-marker children at its depth. -/
def validCursor (t : ATree) : List ℤ → Bool
  | [] => true
  | i :: rest =>
    decide (0 ≤ i) && decide (i < (t.children.length : ℤ)) &&
      (match pyGet t.children i with
       | some kv => validCursor kv.2 rest
       | none => false)

/-- The `keystr == 'r'` branch of `interactive.select_account`: commit is
honored only when `is_root` holds at the cursor; then `postings[1]` is replaced
with the resolved account and the guesser is trained; the `Bool` records the
`break`. -/
def commitStep (sel : Selector) (entry : Txn) (ag : AccountGuess) :
    Option (Selector × Txn × AccountGuess × Bool) :=
  match nestedFrom sel.accounts_dict sel.selected with
  | none => none
  | some nd =>
    if nd.isRoot then
      match getAccount sel.accounts_dict sel.selected with
      | none => none
      | some account_name =>
        match pyGet entry.postings 1 with
        | none => none
        | some p =>
          let entry2 :=
            { entry with postings := entry.postings.set 1 { p with account := account_name } }
          some (sel, entry2, ag.add_txn entry2 account_name, true)
    else
      some (sel, entry, ag, false)

/-! ## `extract.py`: duplicate marking, date filtering, training bootstrap -/

/-- A metadata value as it occurs in extracted entries: a string, or the
boolean duplicate flag. -/
inductive MVal where
  | str : String → MVal
  | bool : Bool → MVal
  deriving DecidableEq, Repr

/-- `extract.DUPLICATE_META`. -/
def DUPLICATE_META : String := "__duplicate__"

/-- An extracted directive as seen by `extract_from_file`: `eid` models Python
object identity (`id(entry)`), used by the duplicate matcher; the date and the
metadata dict are the only other fields the code reads or writes. -/
structure Entry where
  eid : Nat
  date : Nat
  meta : List (String × MVal)
  deriving DecidableEq, Repr

/-- Python dict assignment `d[key] = v`: update in place when present, append
when absent. -/
def pyDictSet {K V : Type} [DecidableEq K] (l : List (K × V)) (key : K) (v : V) :
    List (K × V) :=
  if hasKey l key then
    l.map (fun kv => if kv.1 = key then (kv.1, v) else kv)
  else
    l ++ [(key, v)]

/-- `marked_meta = entry.meta.copy(); marked_meta[DUPLICATE_META] = True;
entry._replace(meta=marked_meta)`. -/
def markEntry (e : Entry) : Entry :=
  { e with meta := pyDictSet e.meta DUPLICATE_META (MVal.bool true) }

/-- The marking loop of `extract_from_file`: `duplicate_set` is the set of
identities of the first components of the matcher's pairs; matched entries are
replaced by flagged copies and also collected into `duplicate_entries`. -/
def markDuplicates (new_entries : List Entry) (duplicate_pairs : List (Entry × Entry)) :
    List Entry × List Entry :=
  let duplicate_set := duplicate_pairs.map (fun p => p.1.eid)
  new_entries.foldl
    (fun acc entry =>
      if entry.eid ∈ duplicate_set then
        (acc.1 ++ [markEntry entry], acc.2 ++ [markEntry entry])
      else
        (acc.1 ++ [entry], acc.2))
    ([], [])

/-- The `min_date` filter of `extract_from_file`:
`itertools.dropwhile(lambda x: x.date < min_date, new_entries)` when a minimum
date is given. -/
def filterMinDate (min_date : Option Nat) (entries : List Entry) : List Entry :=
  match min_date with
  | none => entries
  | some d => entries.dropWhile (fun e => decide (e.date < d))

/-- `extract.extract_from_file`, with the importer's already-extracted entries
and the similarity collaborator (`similar.find_similar_entries`) passed in as
data: empty extraction short-circuits; then the date filter; then duplicate
marking when existing entries are provided. -/
def extract_from_file (new_entries : List Entry) (existing_entries : Option (List Entry))
    (find_similar : List Entry → List Entry → List (Entry × Entry))
    (min_date : Option Nat) : List Entry × List Entry :=
  if new_entries.isEmpty then ([], [])
  else
    let filtered := filterMinDate min_date new_entries
    match existing_entries with
    | none => (filtered, [])
    | some existing => markDuplicates filtered (find_similar filtered existing)

/-- `flags.FLAG_OKAY`: the cleared-transaction flag. -/
def FLAG_OKAY : String := "*"

/-- A message sent to the logger; the training path only ever emits the
`add_txn items` debug line from `AccountGuess.add_txn`. -/
inductive LogMsg where
  | addTxnItems : List String → LogMsg
  deriving DecidableEq, Repr

/-- One iteration of the training bootstrap in `extract.main`: transactions
flagged `FLAG_OKAY` contribute `txn.postings[1].account` to the guesser; a
missing `postings[1]` raises (the `except KeyError: raise` clause adds no
handling and no log message), which aborts the whole fold. -/
def trainStep (acc : AccountGuess × List LogMsg) (txn : Txn) :
    Except (List LogMsg) (AccountGuess × List LogMsg) :=
  if txn.flag = FLAG_OKAY then
    match pyGet txn.postings 1 with
    | none => Except.error acc.2
    | some p =>
      Except.ok (acc.1.add_txn txn p.account, acc.2 ++ [LogMsg.addTxnItems (item_gen txn)])
  else
    Except.ok acc

/-- The training bootstrap of `extract.main` over the existing transactions,
starting from a fresh guesser; on failure the propagated error carries the log
as it stood when the exception escaped. -/
def trainBootstrap (entries : List Txn) : Except (List LogMsg) (AccountGuess × List LogMsg) :=
  entries.foldlM trainStep (AccountGuess.new, [])

/-! ## Well-formedness of the guesser state

Python dicts have unique keys, and a `GuessItem` tally only ever holds counts
that were incremented from a first recording, so every reachable tally has
distinct keys and strictly positive counts.  The claims about reachable
guesser state take these facts as hypotheses. -/

/-- Keys of an association list. -/
def keysOf {K V : Type} (l : List (K × V)) : List K :=
  l.map (fun kv => kv.1)

/-- Invariant of a `GuessItem` reachable by `add` calls: distinct account
keys and strictly positive counts. -/
abbrev WFItem (g : GuessItem) : Prop :=
  (keysOf g.account_dict).Nodup ∧ ∀ kv ∈ g.account_dict, 1 ≤ kv.2

/-- Invariant of an `AccountGuess` reachable by `add_txn` calls: distinct term
keys, and every stored tally well-formed and nonempty. -/
abbrev WFGuess (ag : AccountGuess) : Prop :=
  (keysOf ag.save_dict).Nodup ∧
    ∀ kv ∈ ag.save_dict, WFItem kv.2 ∧ kv.2.account_dict ≠ []

/-- Concrete scenario data: `"STARBUCKS"` trained three times against
`Expenses:Coffee` and once against `Expenses:Dining`. -/
def coffeeAcc : AccName := "Expenses:Coffee".toList

def diningAcc : AccName := "Expenses:Dining".toList

def starbucksItem : GuessItem :=
  (((GuessItem.new.add coffeeAcc).add coffeeAcc).add coffeeAcc).add diningAcc

/-- Concrete duplicate-marking scenario: two fresh entries, one matched. -/
def dupNew0 : Entry := ⟨0, 1, []⟩

def dupNew1 : Entry := ⟨1, 2, []⟩

def dupOld : Entry := ⟨7, 1, []⟩

def dupSim : List Entry → List Entry → List (Entry × Entry) :=
  fun _ _ => [(dupNew0, dupOld)]

/-- A cleared transaction whose `postings[1]` is missing: training on it fails. -/
def badTrainTxn : Txn :=
  { date := 0, flag := "*", payee := none, narration := "BAD", meta := [],
    postings := [⟨"Assets:Checking".toList⟩] }

/-- A cleared transaction with both postings present. -/
def goodTrainTxn : Txn :=
  { date := 0, flag := "*", payee := none, narration := "GOOD", meta := [],
    postings := [⟨"Assets:Checking".toList⟩, ⟨"Expenses:Misc".toList⟩] }

/-- The concrete account tree of the specification scenario:
`Expenses:Toys:Computer` terminal, plus a terminal `Income` root entry. -/
def demoTree : ATree :=
  .node false
    [("Expenses".toList, .node false
        [("Toys".toList, .node false
            [("Computer".toList, .node true [])])]),
     ("Income".toList, .node true [])]

/-- The per-account vote total the specification describes: over each term of
the transaction with a known `GuessItem`, `weight * len(term)` for this
account, summed. -/
def specVote (ag : AccountGuess) (txn : Txn) (acc : AccName) : ℚ :=
  ((item_gen txn).map (fun item =>
    match ag.save_dict.find? (fun kv => decide (kv.1 = item)) with
    | none => 0
    | some kv => lookupD kv.2.get acc 0 * (item.length : ℚ))).sum

/-- The transaction whose only term is `STARBUCKS`. -/
def starbucksTxn : Txn :=
  { date := 0, flag := "*", payee := none, narration := "STARBUCKS", meta := [],
    postings := [] }

/-- The guesser trained 3× on Coffee and 1× on Dining from `starbucksTxn`. -/
def starbucksGuess : AccountGuess :=
  (((AccountGuess.new.add_txn starbucksTxn coffeeAcc).add_txn starbucksTxn
    coffeeAcc).add_txn starbucksTxn coffeeAcc).add_txn starbucksTxn diningAcc

theorem find?_eq_of_mem_nodup {K V : Type} [DecidableEq K] {l : List (K × V)}
    (h : (keysOf l).Nodup) {kv : K × V} (hm : kv ∈ l) :
    l.find? (fun p => decide (p.1 = kv.1)) = some kv := by
  induction l with
  | nil => cases hm
  | cons a as ih =>
    have hk := List.nodup_cons.mp h
    rcases List.mem_cons.mp hm with rfl | hmem
    · simp [List.find?]
    · have hne : ¬ (a.1 = kv.1) := by
        intro he
        have hkmem : kv.1 ∈ List.map (fun kv => kv.1) as :=
          List.mem_map_of_mem (fun kv => kv.1) hmem
        exact hk.1 (show a.1 ∈ List.map (fun kv => kv.1) as from he.symm ▸ hkmem)
      rw [List.find?_cons_of_neg _ (by simpa using hne)]
      exact ih hk.2 hmem

theorem lookup?_eq_of_mem_nodup {K V : Type} [DecidableEq K] {l : List (K × V)}
    (h : (keysOf l).Nodup) {kv : K × V} (hm : kv ∈ l) :
    lookup? l kv.1 = some kv.2 := by
  simp [lookup?, find?_eq_of_mem_nodup h hm]

theorem filterMap_eq_map_of_some {α β : Type} {f : α → Option β} {g : α → β} :
    ∀ l : List α, (∀ a ∈ l, f a = some (g a)) → l.filterMap f = l.map g := by
  intro l h
  induction l with
  | nil => rfl
  | cons a as ih =>
    rw [List.filterMap_cons, h a (List.mem_cons_self a as), List.map_cons,
      ih (fun x hx => h x (List.mem_cons_of_mem a hx))]

theorem get_weight_of_mem {g : GuessItem} (h : WFItem g) {kv : AccName × Nat}
    (hm : kv ∈ g.account_dict) :
    g.get_weight kv.1
      = some (((kv.2 : ℚ) / (g.total : ℚ)) * ((kv.2 : ℚ) / (g.total : ℚ))) := by
  unfold GuessItem.get_weight
  rw [lookup?_eq_of_mem_nodup h.1 hm]

theorem get_eq_map {g : GuessItem} (h : WFItem g) :
    g.get = g.account_dict.map
      (fun kv => (kv.1, ((kv.2 : ℚ) / (g.total : ℚ)) * ((kv.2 : ℚ) / (g.total : ℚ)))) := by
  unfold GuessItem.get
  apply filterMap_eq_map_of_some
  intro kv hm
  rw [get_weight_of_mem h hm]
  rfl

/-- C2: the weight of an account recorded against a term is
`(count_for_account / total_counts_for_term)^2`; the 3×Coffee/1×Dining term
yields weights `0.5625` and `0.0625`; a single-account term yields weight `1`. -/
theorem claim_C2 :
    (∀ g : GuessItem, WFItem g → ∀ kv ∈ g.account_dict,
        g.get_weight kv.1 = some (((kv.2 : ℚ) / (g.total : ℚ)) ^ 2)) ∧
    starbucksItem.get = [(coffeeAcc, 0.5625), (diningAcc, 0.0625)] ∧
    (∀ (g : GuessItem) (a : AccName) (c : Nat), 1 ≤ c → g.account_dict = [(a, c)] →
        g.get_weight a = some 1) := by
  refine ⟨?_, ?_, ?_⟩
  · intro g hg kv hm
    rw [get_weight_of_mem hg hm, pow_two]
  · have hwf : WFItem starbucksItem := by decide
    have hdict : starbucksItem.account_dict = [(coffeeAcc, 3), (diningAcc, 1)] := by decide
    have htot : starbucksItem.total = 4 := by decide
    rw [get_eq_map hwf, htot, hdict]
    simp only [List.map_cons, List.map_nil, List.cons.injEq, Prod.mk.injEq, and_true]
    norm_num
  · intro g a c hc hdict
    have hm : (a, c) ∈ g.account_dict := by rw [hdict]; exact List.mem_singleton.mpr rfl
    have hwf : WFItem g := by
      constructor
      · rw [hdict]; simp [keysOf]
      · intro kv hkv
        rw [hdict] at hkv
        rcases List.mem_singleton.mp hkv with rfl
        exact hc
    have htot : g.total = c := by simp [GuessItem.total, hdict]
    rw [get_weight_of_mem hwf hm]
    have hc0 : ((c : ℚ) ≠ 0) := by
      exact_mod_cast Nat.one_le_iff_ne_zero.mp hc
    rw [htot]
    rw [div_self hc0]
    norm_num

/-- C2 witness: the formula instantiated on the concrete Starbucks tally. -/
theorem claim_C2_witness :
    starbucksItem.get_weight coffeeAcc
      = some ((((3 : Nat) : ℚ) / ((starbucksItem.total : Nat) : ℚ)) ^ 2) :=
  claim_C2.1 starbucksItem (by decide) (coffeeAcc, 3) (by decide)

theorem sum_sq_le (l : List (AccName × Nat)) :
    (l.map (fun kv => kv.2 * kv.2)).sum
      ≤ (l.map (fun kv => kv.2)).sum * (l.map (fun kv => kv.2)).sum := by
  induction l with
  | nil => simp
  | cons kv rest ih =>
    simp only [List.map_cons, List.sum_cons]
    have hr : (kv.2 + (rest.map (fun kv => kv.2)).sum)
          * (kv.2 + (rest.map (fun kv => kv.2)).sum)
        = kv.2 * kv.2 + ((rest.map (fun kv => kv.2)).sum * (rest.map (fun kv => kv.2)).sum
            + 2 * (kv.2 * (rest.map (fun kv => kv.2)).sum)) := by ring
    have hz : 0 ≤ kv.2 * (rest.map (fun kv => kv.2)).sum := Nat.zero_le _
    linarith

theorem sum_sq_lt (kv1 kv2 : AccName × Nat) (rest : List (AccName × Nat))
    (h1 : 1 ≤ kv1.2) (h2 : 1 ≤ kv2.2) :
    ((kv1 :: kv2 :: rest).map (fun kv => kv.2 * kv.2)).sum
      < ((kv1 :: kv2 :: rest).map (fun kv => kv.2)).sum
          * ((kv1 :: kv2 :: rest).map (fun kv => kv.2)).sum := by
  simp only [List.map_cons, List.sum_cons]
  have hQ := sum_sq_le rest
  have hr : (kv1.2 + (kv2.2 + (rest.map (fun kv => kv.2)).sum))
        * (kv1.2 + (kv2.2 + (rest.map (fun kv => kv.2)).sum))
      = kv1.2 * kv1.2 + (kv2.2 * kv2.2
          + (rest.map (fun kv => kv.2)).sum * (rest.map (fun kv => kv.2)).sum)
        + (2 * (kv1.2 * kv2.2) + 2 * (kv1.2 * (rest.map (fun kv => kv.2)).sum)
          + 2 * (kv2.2 * (rest.map (fun kv => kv.2)).sum)) := by ring
  have hpos : 1 * 1 ≤ kv1.2 * kv2.2 := Nat.mul_le_mul h1 h2
  have hz1 : 0 ≤ kv1.2 * (rest.map (fun kv => kv.2)).sum := Nat.zero_le _
  have hz2 : 0 ≤ kv2.2 * (rest.map (fun kv => kv.2)).sum := Nat.zero_le _
  linarith

theorem sum_div_sq (l : List (AccName × Nat)) (T : ℚ) (hT : T ≠ 0) :
    (l.map (fun kv => ((kv.2 : ℚ) / T) * ((kv.2 : ℚ) / T))).sum
      = (l.map (fun kv => (kv.2 : ℚ) * (kv.2 : ℚ))).sum / (T * T) := by
  induction l with
  | nil => simp
  | cons kv rest ih =>
    simp only [List.map_cons, List.sum_cons, ih]
    field_simp

theorem cast_sum_sq (l : List (AccName × Nat)) :
    (l.map (fun kv => (kv.2 : ℚ) * (kv.2 : ℚ))).sum
      = (((l.map (fun kv => kv.2 * kv.2)).sum : Nat) : ℚ) := by
  induction l with
  | nil => simp
  | cons kv rest ih =>
    simp only [List.map_cons, List.sum_cons, Nat.cast_add, Nat.cast_mul, ih]

/-- C10: every weight of a nonempty tally lies in `(0, 1]`; the weights sum to
at most `1`, with equality exactly when only one account was ever recorded. -/
theorem claim_C10 (g : GuessItem) (h : WFItem g) (hne : g.account_dict ≠ []) :
    (∀ p ∈ g.get, 0 < p.2 ∧ p.2 ≤ 1) ∧
    (g.get.map (fun p => p.2)).sum ≤ 1 ∧
    ((g.get.map (fun p => p.2)).sum = 1 ↔ g.account_dict.length = 1) := by
  have hcpos : ∀ c ∈ g.account_dict.map (fun kv => kv.2), 1 ≤ c := by
    intro c hc
    obtain ⟨kv, hkv, rfl⟩ := List.mem_map.mp hc
    exact h.2 kv hkv
  have hTpos : 1 ≤ g.total := by
    obtain ⟨kv, hkv⟩ := List.exists_mem_of_ne_nil g.account_dict hne
    calc 1 ≤ kv.2 := h.2 kv hkv
      _ ≤ g.total := List.le_sum_of_mem (List.mem_map_of_mem (fun kv => kv.2) hkv)
  have hTQ : (0 : ℚ) < (g.total : ℚ) := by exact_mod_cast Nat.lt_of_lt_of_le Nat.zero_lt_one hTpos
  have hT0 : ((g.total : ℚ)) ≠ 0 := ne_of_gt hTQ
  have htot_def : g.total = (g.account_dict.map (fun kv => kv.2)).sum := rfl
  have hmapsum : (g.get.map (fun p => p.2)).sum
      = (((g.account_dict.map (fun kv => kv.2 * kv.2)).sum : Nat) : ℚ)
          / ((g.total : ℚ) * (g.total : ℚ)) := by
    rw [get_eq_map h, List.map_map]
    have hcomp : ((fun p : AccName × ℚ => p.2) ∘
        (fun kv : AccName × Nat =>
          (kv.1, ((kv.2 : ℚ) / (g.total : ℚ)) * ((kv.2 : ℚ) / (g.total : ℚ)))))
        = fun kv : AccName × Nat =>
            ((kv.2 : ℚ) / (g.total : ℚ)) * ((kv.2 : ℚ) / (g.total : ℚ)) := rfl
    rw [hcomp, sum_div_sq g.account_dict _ hT0, cast_sum_sq]
  have hsum_le := sum_sq_le g.account_dict
  rw [← htot_def] at hsum_le
  have hTTpos : (0 : ℚ) < (g.total : ℚ) * (g.total : ℚ) := mul_pos hTQ hTQ
  refine ⟨?_, ?_, ?_⟩
  · intro p hp
    rw [get_eq_map h] at hp
    obtain ⟨kv, hkv, rfl⟩ := List.mem_map.mp hp
    have hc1 : 1 ≤ kv.2 := h.2 kv hkv
    have hcT : kv.2 ≤ g.total := List.le_sum_of_mem (List.mem_map_of_mem (fun kv => kv.2) hkv)
    have hcQ : (0 : ℚ) < (kv.2 : ℚ) := by exact_mod_cast Nat.lt_of_lt_of_le Nat.zero_lt_one hc1
    have hdivpos : (0 : ℚ) < (kv.2 : ℚ) / (g.total : ℚ) := div_pos hcQ hTQ
    have hdivle : (kv.2 : ℚ) / (g.total : ℚ) ≤ 1 :=
      (div_le_one hTQ).mpr (by exact_mod_cast hcT)
    refine ⟨mul_pos hdivpos hdivpos, ?_⟩
    calc ((kv.2 : ℚ) / (g.total : ℚ)) * ((kv.2 : ℚ) / (g.total : ℚ))
        ≤ 1 * 1 := mul_le_mul hdivle hdivle (le_of_lt hdivpos) zero_le_one
      _ = 1 := one_mul 1
  · rw [hmapsum, div_le_one hTTpos]
    rw [← Nat.cast_mul]
    exact_mod_cast hsum_le
  · rw [hmapsum, div_eq_one_iff_eq (ne_of_gt hTTpos)]
    rw [← Nat.cast_mul, Nat.cast_inj]
    constructor
    · intro heq
      rcases hl : g.account_dict with _ | ⟨kv1, rest1⟩
      · exact absurd hl hne
      · rcases hr1 : rest1 with _ | ⟨kv2, rest2⟩
        · rfl
        · exfalso
          have h1 : 1 ≤ kv1.2 := h.2 kv1 (by rw [hl]; exact List.mem_cons_self _ _)
          have h2 : 1 ≤ kv2.2 := h.2 kv2
            (by rw [hl, hr1]; exact List.mem_cons_of_mem _ (List.mem_cons_self _ _))
          have hlt := sum_sq_lt kv1 kv2 rest2 h1 h2
          rw [htot_def, hl, hr1] at heq
          exact Nat.ne_of_lt hlt heq
    · intro hlen
      obtain ⟨kv, hkv⟩ := List.length_eq_one.mp hlen
      rw [htot_def, hkv]
      simp

/-- C10 witness: the bounds instantiated on the concrete Starbucks tally. -/
theorem claim_C10_witness :
    (∀ p ∈ starbucksItem.get, 0 < p.2 ∧ p.2 ≤ 1) ∧
    (starbucksItem.get.map (fun p => p.2)).sum ≤ 1 ∧
    ((starbucksItem.get.map (fun p => p.2)).sum = 1 ↔ starbucksItem.account_dict.length = 1) :=
  claim_C10 starbucksItem (by decide) (by decide)

/-! ## C9: the minimum-date filter -/

theorem dropWhile_eq_filter_sorted (d : Nat) :
    ∀ entries : List Entry, List.Pairwise (fun a b => a.date ≤ b.date) entries →
      entries.dropWhile (fun e => decide (e.date < d))
        = entries.filter (fun e => ! decide (e.date < d)) := by
  intro entries h
  induction entries with
  | nil => rfl
  | cons e rest ih =>
    have hp := List.pairwise_cons.mp h
    by_cases he : e.date < d
    · rw [List.dropWhile_cons_of_pos (by simpa using he),
        List.filter_cons_of_neg (by simpa using he)]
      exact ih hp.2
    · rw [List.dropWhile_cons_of_neg (by simpa using he),
        List.filter_cons_of_pos (by simpa using he)]
      have hall : ∀ a ∈ rest, (! decide (a.date < d)) = true := by
        intro a ha
        have := hp.1 a ha
        simp only [Bool.not_eq_true', decide_eq_false_iff_not]
        omega
      rw [List.filter_eq_self.mpr hall]

/-- C9: when a minimum date is given and the extracted entries are ascending by
date, the result of `extract_from_file` keeps exactly the entries whose date is
not strictly before the cutoff, in their original order. -/
theorem claim_C9 (entries : List Entry) (d : Nat)
    (find_similar : List Entry → List Entry → List (Entry × Entry))
    (hsorted : List.Pairwise (fun a b => a.date ≤ b.date) entries) :
    filterMinDate (some d) entries = entries.filter (fun e => ! decide (e.date < d)) ∧
    extract_from_file entries none find_similar (some d)
      = (entries.filter (fun e => ! decide (e.date < d)), []) := by
  have hfd : filterMinDate (some d) entries
      = entries.filter (fun e => ! decide (e.date < d)) :=
    dropWhile_eq_filter_sorted d entries hsorted
  refine ⟨hfd, ?_⟩
  unfold extract_from_file
  rcases entries with _ | ⟨e, rest⟩
  · simp
  · rw [if_neg (by simp)]
    rw [hfd]

/-- C9 witness: cutoff 4 over entries dated 1, 3, 5 keeps only the last. -/
theorem claim_C9_witness :
    filterMinDate (some 4) [⟨0, 1, []⟩, ⟨1, 3, []⟩, ⟨2, 5, []⟩]
        = List.filter (fun e => ! decide (e.date < 4)) [⟨0, 1, []⟩, ⟨1, 3, []⟩, ⟨2, 5, []⟩] ∧
    extract_from_file [⟨0, 1, []⟩, ⟨1, 3, []⟩, ⟨2, 5, []⟩] none (fun _ _ => []) (some 4)
        = (List.filter (fun e => ! decide (e.date < 4)) [⟨0, 1, []⟩, ⟨1, 3, []⟩, ⟨2, 5, []⟩], []) :=
  claim_C9 [⟨0, 1, []⟩, ⟨1, 3, []⟩, ⟨2, 5, []⟩] 4 (fun _ _ => []) (by decide)

/-! ## C6: duplicate marking -/

theorem hasKey_cons_elim {K V : Type} [DecidableEq K] {a : K × V} {as : List (K × V)}
    {key : K} (h : hasKey (a :: as) key = true) (ha : ¬ (a.1 = key)) :
    hasKey as key = true := by
  rcases List.any_eq_true.mp h with ⟨kv, hkv, hdec⟩
  rcases List.mem_cons.mp hkv with rfl | hmem
  · exact absurd (of_decide_eq_true hdec) ha
  · exact List.any_eq_true.mpr ⟨kv, hmem, hdec⟩

theorem hasKey_cons_head {K V : Type} [DecidableEq K] {a : K × V} {as : List (K × V)}
    {key : K} (h : ¬ (hasKey (a :: as) key = true)) : ¬ (a.1 = key) := by
  intro he
  exact h (List.any_eq_true.mpr ⟨a, List.mem_cons_self a as, decide_eq_true he⟩)

theorem hasKey_cons_tail {K V : Type} [DecidableEq K] {a : K × V} {as : List (K × V)}
    {key : K} (h : ¬ (hasKey (a :: as) key = true)) : ¬ (hasKey as key = true) := by
  intro hc
  rcases List.any_eq_true.mp hc with ⟨kv, hkv, hdec⟩
  exact h (List.any_eq_true.mpr ⟨kv, List.mem_cons_of_mem a hkv, hdec⟩)

theorem lookup?_update_self {K V : Type} [DecidableEq K] (key : K) (v : V) :
    ∀ l : List (K × V), hasKey l key = true →
      lookup? (l.map (fun kv => if kv.1 = key then (kv.1, v) else kv)) key = some v := by
  intro l
  induction l with
  | nil => intro h; cases h
  | cons a as ih =>
    intro h
    by_cases ha : a.1 = key
    · show lookup? ((if a.1 = key then (a.1, v) else a) :: _) key = some v
      rw [if_pos ha]
      unfold lookup?
      rw [List.find?_cons_of_pos _ (by simpa using ha)]
      rfl
    · show lookup? ((if a.1 = key then (a.1, v) else a) :: _) key = some v
      rw [if_neg ha]
      unfold lookup?
      rw [List.find?_cons_of_neg _ (by simpa using ha)]
      exact ih (hasKey_cons_elim h ha)

theorem lookup?_append_self {K V : Type} [DecidableEq K] (key : K) (v : V) :
    ∀ l : List (K × V), ¬ (hasKey l key = true) →
      lookup? (l ++ [(key, v)]) key = some v := by
  intro l
  induction l with
  | nil =>
    intro _
    unfold lookup?
    rw [List.nil_append, List.find?_cons_of_pos _ (by simp)]
    rfl
  | cons a as ih =>
    intro h
    rw [List.cons_append]
    unfold lookup?
    rw [List.find?_cons_of_neg _ (by simpa using hasKey_cons_head h)]
    exact ih (hasKey_cons_tail h)

theorem lookup?_update_other {K V : Type} [DecidableEq K] (key k : K) (v : V)
    (hne : k ≠ key) :
    ∀ l : List (K × V),
      lookup? (l.map (fun kv => if kv.1 = key then (kv.1, v) else kv)) k = lookup? l k := by
  intro l
  induction l with
  | nil => rfl
  | cons a as ih =>
    show lookup? ((if a.1 = key then (a.1, v) else a) :: _) k = _
    by_cases hak : a.1 = k
    · have ha : ¬ (a.1 = key) := by rw [hak]; exact hne
      rw [if_neg ha]
      unfold lookup?
      rw [List.find?_cons_of_pos _ (by simpa using hak),
        List.find?_cons_of_pos _ (by simpa using hak)]
    · by_cases ha : a.1 = key
      · rw [if_pos ha]
        unfold lookup?
        rw [List.find?_cons_of_neg _ (by simpa using hak),
          List.find?_cons_of_neg _ (by simpa using hak)]
        exact ih
      · rw [if_neg ha]
        unfold lookup?
        rw [List.find?_cons_of_neg _ (by simpa using hak),
          List.find?_cons_of_neg _ (by simpa using hak)]
        exact ih

theorem lookup?_append_other {K V : Type} [DecidableEq K] (key k : K) (v : V)
    (hne : k ≠ key) :
    ∀ l : List (K × V), lookup? (l ++ [(key, v)]) k = lookup? l k := by
  intro l
  induction l with
  | nil =>
    unfold lookup?
    rw [List.nil_append,
      List.find?_cons_of_neg _ (by simpa using fun he : key = k => hne he.symm)]
  | cons a as ih =>
    rw [List.cons_append]
    by_cases hak : a.1 = k
    · unfold lookup?
      rw [List.find?_cons_of_pos _ (by simpa using hak),
        List.find?_cons_of_pos _ (by simpa using hak)]
    · unfold lookup?
      rw [List.find?_cons_of_neg _ (by simpa using hak),
        List.find?_cons_of_neg _ (by simpa using hak)]
      exact ih

theorem lookup?_pyDictSet_self {K V : Type} [DecidableEq K] (l : List (K × V)) (key : K)
    (v : V) : lookup? (pyDictSet l key v) key = some v := by
  unfold pyDictSet
  by_cases hk : hasKey l key = true
  · rw [if_pos hk]
    exact lookup?_update_self key v l hk
  · rw [if_neg hk]
    exact lookup?_append_self key v l hk

theorem lookup?_pyDictSet_other {K V : Type} [DecidableEq K] (l : List (K × V)) (key k : K)
    (v : V) (hne : k ≠ key) : lookup? (pyDictSet l key v) k = lookup? l k := by
  unfold pyDictSet
  by_cases hk : hasKey l key = true
  · rw [if_pos hk]
    exact lookup?_update_other key k v hne l
  · rw [if_neg hk]
    exact lookup?_append_other key k v hne l

theorem foldl_mark (ids : List Nat) :
    ∀ (l : List Entry) (acc : List Entry × List Entry),
      l.foldl (fun acc entry =>
          if entry.eid ∈ ids then
            (acc.1 ++ [markEntry entry], acc.2 ++ [markEntry entry])
          else (acc.1 ++ [entry], acc.2)) acc
        = (acc.1 ++ l.map (fun e => if e.eid ∈ ids then markEntry e else e),
           acc.2 ++ (l.filter (fun e => decide (e.eid ∈ ids))).map markEntry) := by
  intro l
  induction l with
  | nil => intro acc; simp
  | cons e rest ih =>
    intro acc
    simp only [List.foldl_cons]
    by_cases hmem : e.eid ∈ ids
    · rw [if_pos hmem, ih]
      simp [hmem, List.filter_cons]
    · rw [if_neg hmem, ih]
      simp [hmem, List.filter_cons]

/-- C6: with existing entries provided, `extract_from_file` replaces exactly
the entries matched by the similarity collaborator with flagged copies, leaves
all other entries untouched, preserves the original order in both returned
lists, and the flagged subset is exactly the matched sublist. -/
theorem claim_C6 (new_entries existing : List Entry)
    (find_similar : List Entry → List Entry → List (Entry × Entry))
    (hne : new_entries ≠ []) :
    extract_from_file new_entries (some existing) find_similar none
      = (new_entries.map (fun e =>
            if e.eid ∈ (find_similar new_entries existing).map (fun p => p.1.eid)
            then markEntry e else e),
         (new_entries.filter (fun e =>
            decide (e.eid ∈ (find_similar new_entries existing).map (fun p => p.1.eid)))).map
              markEntry) ∧
    (∀ e : Entry, lookup? (markEntry e).meta DUPLICATE_META = some (MVal.bool true)) ∧
    (∀ (e : Entry) (k : String), k ≠ DUPLICATE_META →
        lookup? (markEntry e).meta k = lookup? e.meta k) ∧
    (∀ e ∈ new_entries,
        e.eid ∉ (find_similar new_entries existing).map (fun p => p.1.eid) →
        (if e.eid ∈ (find_similar new_entries existing).map (fun p => p.1.eid)
         then markEntry e else e) = e) := by
  refine ⟨?_, ?_, ?_, ?_⟩
  · unfold extract_from_file
    rw [if_neg (by simpa using hne)]
    show markDuplicates new_entries (find_similar new_entries existing) = _
    unfold markDuplicates
    rw [foldl_mark]
    simp
  · intro e
    exact lookup?_pyDictSet_self e.meta DUPLICATE_META (MVal.bool true)
  · intro e k hk
    exact lookup?_pyDictSet_other e.meta DUPLICATE_META k (MVal.bool true) hk
  · intro e _ hnotin
    rw [if_neg hnotin]

/-- C6 witness: one of two entries is matched; only it is flagged. -/
theorem claim_C6_witness :
    extract_from_file [dupNew0, dupNew1] (some [dupOld]) dupSim none
      = ([dupNew0, dupNew1].map (fun e =>
            if e.eid ∈ (dupSim [dupNew0, dupNew1] [dupOld]).map (fun p => p.1.eid)
            then markEntry e else e),
         ([dupNew0, dupNew1].filter (fun e =>
            decide (e.eid ∈ (dupSim [dupNew0, dupNew1] [dupOld]).map
              (fun p => p.1.eid)))).map markEntry) ∧
    (∀ e : Entry, lookup? (markEntry e).meta DUPLICATE_META = some (MVal.bool true)) ∧
    (∀ (e : Entry) (k : String), k ≠ DUPLICATE_META →
        lookup? (markEntry e).meta k = lookup? e.meta k) ∧
    (∀ e ∈ [dupNew0, dupNew1],
        e.eid ∉ (dupSim [dupNew0, dupNew1] [dupOld]).map (fun p => p.1.eid) →
        (if e.eid ∈ (dupSim [dupNew0, dupNew1] [dupOld]).map (fun p => p.1.eid)
         then markEntry e else e) = e) :=
  claim_C6 [dupNew0, dupNew1] [dupOld] dupSim (by decide)

/-! ## C8: the training bootstrap re-raises without logging -/

/-- C8 counterexample: the claim says the training lookup failure is logged
before being re-raised, but the bootstrap propagates the failure with no log
message emitted at all. -/
theorem claim_C8_counterexample :
    ¬ (∀ (entries : List Txn) (log : List LogMsg),
        trainBootstrap entries = Except.error log → log ≠ []) := by
  intro hclaim
  exact hclaim [badTrainTxn] [] (by rfl) rfl

/-- C8 (amended): a training lookup failure (missing `postings[1]` on a
cleared transaction) propagates out of the bootstrap — the remaining
transactions are not processed and the failure is not handled as recoverable —
and the log is exactly what was emitted before the failure, with no message
about the failure itself. -/
theorem claim_C8_amended (pre : List Txn) (bad : Txn) (post : List Txn)
    (ag : AccountGuess) (log : List LogMsg)
    (hpre : trainBootstrap pre = Except.ok (ag, log))
    (hflag : bad.flag = FLAG_OKAY)
    (hmissing : pyGet bad.postings 1 = none) :
    trainBootstrap (pre ++ bad :: post) = Except.error log := by
  unfold trainBootstrap at hpre ⊢
  rw [List.foldlM_append, hpre]
  show (trainStep (ag, log) bad >>= fun s => post.foldlM trainStep s) = Except.error log
  unfold trainStep
  rw [if_pos hflag, hmissing]
  rfl

/-- C8 witness: one good transaction trains and logs; the bad one then aborts
the bootstrap carrying only the pre-failure log. -/
theorem claim_C8_witness :
    trainBootstrap ([goodTrainTxn] ++ badTrainTxn :: [])
      = Except.error [LogMsg.addTxnItems (item_gen goodTrainTxn)] :=
  claim_C8_amended [goodTrainTxn] badTrainTxn []
    (AccountGuess.new.add_txn goodTrainTxn "Expenses:Misc".toList)
    [LogMsg.addTxnItems (item_gen goodTrainTxn)] (by rfl) (by rfl) (by rfl)

/-! ## C3: round-trip path resolution -/

theorem pyIndex_spec {α : Type} (p : α → Bool) :
    ∀ (l : List α) (idx : Nat), pyIndex p l = some idx →
      ∃ a, l.get? idx = some a ∧ p a = true := by
  intro l
  induction l with
  | nil => intro idx h; cases h
  | cons a as ih =>
    intro idx h
    unfold pyIndex at h
    by_cases hp : p a
    · rw [if_pos hp] at h
      cases h
      exact ⟨a, rfl, hp⟩
    · rw [if_neg hp] at h
      rcases Option.map_eq_some'.mp h with ⟨n, hn, rfl⟩
      rcases ih n hn with ⟨b, hb, hpb⟩
      exact ⟨b, by simpa using hb, hpb⟩

theorem setAccountGo_getNames :
    ∀ (segs : List AccName) (t : ATree) (sel : List ℤ),
      setAccountGo t segs = some sel → getNames t sel = some segs := by
  intro segs
  induction segs with
  | nil =>
    intro t sel h
    cases h
    rfl
  | cons part rest ih =>
    intro t sel h
    unfold setAccountGo at h
    cases hidx : pyIndex (fun kv : AccName × ATree => decide (kv.1 = part)) t.children with
    | none => rw [hidx] at h; cases h
    | some idx =>
      rw [hidx] at h
      dsimp only at h
      cases hget : t.children.get? idx with
      | none => rw [hget] at h; cases h
      | some kv =>
        rw [hget] at h
        dsimp only at h
        rcases Option.map_eq_some'.mp h with ⟨sel2, hsel2, rfl⟩
        obtain ⟨a, ha, hpa⟩ := pyIndex_spec _ t.children idx hidx
        rw [hget] at ha
        cases ha
        have hkv1 : kv.1 = part := of_decide_eq_true hpa
        have hpg : pyGet t.children (idx : ℤ) = some kv := by
          unfold pyGet
          rw [if_pos (by exact_mod_cast Nat.zero_le idx)]
          simpa using hget
        unfold getNames
        rw [hpg]
        dsimp only
        rw [ih kv.2 sel2 hsel2, hkv1]
        rfl

/-- C3: resolving an account path that exists in the tree with `set_account`
and then reading the `account` property returns the path unchanged. -/
theorem claim_C3 (t : ATree) (P : AccName) (sel : List ℤ)
    (h : setAccount t P = some sel) :
    getAccount t sel = some P := by
  unfold setAccount at h
  unfold getAccount
  rw [setAccountGo_getNames (P.splitOn ':') t sel h]
  rw [Option.map_some']
  rw [List.intercalate_splitOn]

/-- C3 witness: the round trip on `Expenses:Toys:Computer` in the demo tree. -/
theorem claim_C3_witness :
    getAccount demoTree [0, 0, 0] = some "Expenses:Toys:Computer".toList :=
  claim_C3 demoTree "Expenses:Toys:Computer".toList [0, 0, 0] (by decide)

/-! ## C4 and C5: cursor validity under navigation -/

theorem pyGet_of_bounds {α : Type} (l : List α) (i : ℤ) (h0 : 0 ≤ i)
    (hlt : i < (l.length : ℤ)) : ∃ a, pyGet l i = some a := by
  unfold pyGet
  rw [if_pos h0]
  have hn : i.toNat < l.length := by omega
  cases hg : l.get? i.toNat with
  | none => exact absurd (List.get?_eq_none.mp hg) (by omega)
  | some a => exact ⟨a, rfl⟩

theorem validCursor_cons_iff (t : ATree) (i : ℤ) (rest : List ℤ) :
    validCursor t (i :: rest) = true ↔
      0 ≤ i ∧ i < (t.children.length : ℤ) ∧
        ∃ kv, pyGet t.children i = some kv ∧ validCursor kv.2 rest = true := by
  have heq : validCursor t (i :: rest)
      = (decide (0 ≤ i) && decide (i < (t.children.length : ℤ)) &&
        (match pyGet t.children i with
         | some kv => validCursor kv.2 rest
         | none => false)) := rfl
  rw [heq]
  cases hg : pyGet t.children i with
  | none => simp
  | some kv => simp [and_assoc]

theorem nestedFrom_of_valid :
    ∀ (sel : List ℤ) (t : ATree), validCursor t sel = true →
      ∃ t2, nestedFrom t sel = some t2 := by
  intro sel
  induction sel with
  | nil => intro t _; exact ⟨t, rfl⟩
  | cons i rest ih =>
    intro t hv
    obtain ⟨h0, hlt, kv, hg, hv2⟩ := (validCursor_cons_iff t i rest).mp hv
    unfold nestedFrom
    rw [hg]
    exact ih kv.2 hv2

theorem getNames_of_valid :
    ∀ (sel : List ℤ) (t : ATree), validCursor t sel = true →
      ∃ ns, getNames t sel = some ns := by
  intro sel
  induction sel with
  | nil => intro t _; exact ⟨[], rfl⟩
  | cons i rest ih =>
    intro t hv
    obtain ⟨h0, hlt, kv, hg, hv2⟩ := (validCursor_cons_iff t i rest).mp hv
    unfold getNames
    rw [hg]
    obtain ⟨ns, hns⟩ := ih kv.2 hv2
    exact ⟨kv.1 :: ns, by dsimp only; rw [hns]; rfl⟩

theorem validCursor_append_last :
    ∀ (init : List ℤ) (t : ATree) (i : ℤ),
      validCursor t (init ++ [i]) = true ↔
        (validCursor t init = true ∧
         ∃ t2, nestedFrom t init = some t2 ∧ 0 ≤ i ∧ i < (t2.children.length : ℤ)) := by
  intro init
  induction init with
  | nil =>
    intro t i
    rw [List.nil_append, validCursor_cons_iff]
    constructor
    · rintro ⟨h0, hlt, kv, hg, _⟩
      exact ⟨rfl, t, rfl, h0, hlt⟩
    · rintro ⟨_, t2, ht2, h0, hlt⟩
      have ht : t = t2 := by
        have : (some t : Option ATree) = some t2 := ht2
        exact Option.some.inj this
      subst ht
      obtain ⟨kv, hkv⟩ := pyGet_of_bounds t.children i h0 hlt
      exact ⟨h0, hlt, kv, hkv, rfl⟩
  | cons j rest ih =>
    intro t i
    rw [List.cons_append, validCursor_cons_iff, validCursor_cons_iff]
    constructor
    · rintro ⟨h0, hlt, kv, hg, hv⟩
      obtain ⟨hvrest, t2, hnest, hi0, hilt⟩ := (ih kv.2 i).mp hv
      refine ⟨⟨h0, hlt, kv, hg, hvrest⟩, t2, ?_, hi0, hilt⟩
      unfold nestedFrom
      rw [hg]
      exact hnest
    · rintro ⟨⟨h0, hlt, kv, hg, hvrest⟩, t2, hnest, hi0, hilt⟩
      unfold nestedFrom at hnest
      rw [hg] at hnest
      dsimp only at hnest
      exact ⟨h0, hlt, kv, hg, (ih kv.2 i).mpr ⟨hvrest, t2, hnest, hi0, hilt⟩⟩

theorem prev_account_ok (s : Selector)
    (hv : validCursor s.accounts_dict s.selected = true) (hne : s.selected ≠ []) :
    ∃ s2, s.prev_account = some s2 ∧ s2.accounts_dict = s.accounts_dict ∧
      s2.selected ≠ [] ∧ validCursor s.accounts_dict s2.selected = true := by
  have hlast : s.selected.getLast? = some (s.selected.getLast hne) :=
    List.getLast?_eq_getLast s.selected hne
  have hv2 : validCursor s.accounts_dict
      (s.selected.dropLast ++ [s.selected.getLast hne]) = true := by
    rw [List.dropLast_append_getLast hne]
    exact hv
  obtain ⟨hvinit, t2, hnest, h0, hlt⟩ := (validCursor_append_last _ _ _).mp hv2
  refine ⟨{ s with selected :=
      s.selected.dropLast ++ [max (s.selected.getLast hne - 1) 0] }, ?_, rfl, by simp, ?_⟩
  · unfold Selector.prev_account
    rw [hlast]
  · apply (validCursor_append_last _ _ _).mpr
    refine ⟨hvinit, t2, hnest, le_max_right _ _, ?_⟩
    exact lt_of_le_of_lt (max_le (by omega) h0) hlt

theorem next_account_ok (s : Selector)
    (hv : validCursor s.accounts_dict s.selected = true) (hne : s.selected ≠ []) :
    ∃ s2, s.next_account = some s2 ∧ s2.accounts_dict = s.accounts_dict ∧
      s2.selected ≠ [] ∧ validCursor s.accounts_dict s2.selected = true := by
  have hlast : s.selected.getLast? = some (s.selected.getLast hne) :=
    List.getLast?_eq_getLast s.selected hne
  have hv2 : validCursor s.accounts_dict
      (s.selected.dropLast ++ [s.selected.getLast hne]) = true := by
    rw [List.dropLast_append_getLast hne]
    exact hv
  obtain ⟨hvinit, t2, hnest, h0, hlt⟩ := (validCursor_append_last _ _ _).mp hv2
  have hbounds : 0 ≤ min (s.selected.getLast hne + 1) ((t2.children.length : ℤ) - 1) ∧
      min (s.selected.getLast hne + 1) ((t2.children.length : ℤ) - 1)
        < (t2.children.length : ℤ) := by
    rcases le_total (s.selected.getLast hne + 1) ((t2.children.length : ℤ) - 1)
      with hmin | hmin
    · rw [min_eq_left hmin]
      omega
    · rw [min_eq_right hmin]
      omega
  refine ⟨{ s with selected := s.selected.dropLast ++
      [min (s.selected.getLast hne + 1) ((t2.children.length : ℤ) - 1)] }, ?_, rfl,
      by simp, ?_⟩
  · unfold Selector.next_account
    rw [hnest]
    dsimp only
    rw [hlast]
  · apply (validCursor_append_last _ _ _).mpr
    exact ⟨hvinit, t2, hnest, hbounds.1, hbounds.2⟩

theorem prev_level_ok (s : Selector)
    (hv : validCursor s.accounts_dict s.selected = true) (hne : s.selected ≠ []) :
    s.prev_level.accounts_dict = s.accounts_dict ∧ s.prev_level.selected ≠ [] ∧
      validCursor s.accounts_dict s.prev_level.selected = true := by
  unfold Selector.prev_level
  by_cases hlen : 1 < s.selected.length
  · rw [if_pos hlen]
    have hv2 : validCursor s.accounts_dict
        (s.selected.dropLast ++ [s.selected.getLast hne]) = true := by
      rw [List.dropLast_append_getLast hne]
      exact hv
    obtain ⟨hvinit, _, _, _, _⟩ := (validCursor_append_last _ _ _).mp hv2
    refine ⟨rfl, ?_, hvinit⟩
    show s.selected.dropLast ≠ []
    intro hc
    have hlendl := List.length_dropLast s.selected
    rw [hc] at hlendl
    simp at hlendl
    omega
  · rw [if_neg hlen]
    exact ⟨rfl, hne, hv⟩

theorem next_level_ok (s : Selector)
    (hv : validCursor s.accounts_dict s.selected = true) (hne : s.selected ≠ []) :
    ∃ s2, s.next_level = some s2 ∧ s2.accounts_dict = s.accounts_dict ∧
      s2.selected ≠ [] ∧ validCursor s.accounts_dict s2.selected = true := by
  obtain ⟨t2, hnest⟩ := nestedFrom_of_valid s.selected s.accounts_dict hv
  unfold Selector.next_level
  rw [hnest]
  dsimp only
  by_cases hemp : t2.children.isEmpty
  · rw [if_pos hemp]
    exact ⟨s, rfl, rfl, hne, hv⟩
  · rw [if_neg hemp]
    refine ⟨_, rfl, rfl, by simp, ?_⟩
    apply (validCursor_append_last _ _ _).mpr
    refine ⟨hv, t2, hnest, le_refl 0, ?_⟩
    have hne2 : t2.children ≠ [] := by
      intro hc
      exact hemp (by rw [hc]; rfl)
    have := List.length_pos.mpr hne2
    exact_mod_cast this

theorem step_ok (s : Selector) (c : NavCmd)
    (hv : validCursor s.accounts_dict s.selected = true) (hne : s.selected ≠ []) :
    ∃ s2, s.step c = some s2 ∧ s2.accounts_dict = s.accounts_dict ∧
      s2.selected ≠ [] ∧ validCursor s.accounts_dict s2.selected = true := by
  cases c with
  | prevAccount => exact prev_account_ok s hv hne
  | nextAccount => exact next_account_ok s hv hne
  | prevLevel =>
    obtain ⟨h1, h2, h3⟩ := prev_level_ok s hv hne
    exact ⟨s.prev_level, rfl, h1, h2, h3⟩
  | nextLevel => exact next_level_ok s hv hne

theorem run_ok :
    ∀ (cmds : List NavCmd) (s : Selector),
      validCursor s.accounts_dict s.selected = true → s.selected ≠ [] →
      ∃ s2, s.run cmds = some s2 ∧ s2.accounts_dict = s.accounts_dict ∧
        s2.selected ≠ [] ∧ validCursor s.accounts_dict s2.selected = true := by
  intro cmds
  induction cmds with
  | nil => intro s hv hne; exact ⟨s, rfl, rfl, hne, hv⟩
  | cons c cs ih =>
    intro s hv hne
    obtain ⟨s1, hs1, hacc1, hne1, hv1⟩ := step_ok s c hv hne
    obtain ⟨s2, hs2, hacc2, hne2, hv2⟩ := ih s1 (by rw [hacc1]; exact hv1) hne1
    refine ⟨s2, ?_, ?_, hne2, ?_⟩
    · unfold Selector.run at hs2 ⊢
      rw [List.foldlM_cons, hs1]
      simpa using hs2
    · rw [hacc2, hacc1]
    · rw [hacc1] at hv2
      exact hv2

/-- C4: from `reset()` on a tree with at least one non-marker root entry, any
sequence of the four navigation commands succeeds and keeps the cursor a valid
path: nonempty, every index nonnegative and below the sibling count at its
depth. -/
theorem claim_C4 (t : ATree) (cmds : List NavCmd) (hroot : t.children ≠ []) :
    ∃ s2, (Selector.reset ⟨t, []⟩).run cmds = some s2 ∧
      s2.selected ≠ [] ∧ validCursor t s2.selected = true := by
  have hlen : 0 < (t.children.length : ℤ) := by
    have := List.length_pos.mpr hroot
    exact_mod_cast this
  have hv0 : validCursor t [0] = true := by
    apply (validCursor_cons_iff t 0 []).mpr
    obtain ⟨kv, hkv⟩ := pyGet_of_bounds t.children 0 (le_refl 0) hlen
    exact ⟨le_refl 0, hlen, kv, hkv, rfl⟩
  obtain ⟨s2, hrun, hacc, hne2, hv2⟩ :=
    run_ok cmds (Selector.reset ⟨t, []⟩) hv0 (by simp [Selector.reset])
  exact ⟨s2, hrun, hne2, hv2⟩

/-- C4 witness: a concrete command sequence on the demo tree. -/
theorem claim_C4_witness :
    ∃ s2, (Selector.reset ⟨demoTree, []⟩).run
        [NavCmd.nextLevel, NavCmd.nextAccount, NavCmd.prevAccount, NavCmd.prevLevel,
         NavCmd.nextAccount, NavCmd.nextLevel] = some s2 ∧
      s2.selected ≠ [] ∧ validCursor demoTree s2.selected = true :=
  claim_C4 demoTree
    [NavCmd.nextLevel, NavCmd.nextAccount, NavCmd.prevAccount, NavCmd.prevLevel,
     NavCmd.nextAccount, NavCmd.nextLevel] (List.cons_ne_nil _ _)

/-- C5: at the boundaries every navigation command clamps to a no-op — first
sibling for `prev_account`, last sibling for `next_account`, depth 1 for
`prev_level`, childless node for `next_level` — and on a valid cursor none of
the four operations fails. -/
theorem claim_C5 (s : Selector)
    (hv : validCursor s.accounts_dict s.selected = true) (hne : s.selected ≠ []) :
    (s.selected.getLast? = some 0 → s.prev_account = some s) ∧
    (∀ t2, nestedFrom s.accounts_dict s.selected.dropLast = some t2 →
        s.selected.getLast? = some ((t2.children.length : ℤ) - 1) →
        s.next_account = some s) ∧
    (s.selected.length = 1 → s.prev_level = s) ∧
    (∀ t2, nestedFrom s.accounts_dict s.selected = some t2 → t2.children = [] →
        s.next_level = some s) ∧
    (∃ a, s.prev_account = some a) ∧ (∃ b, s.next_account = some b) ∧
    (∃ d, s.next_level = some d) := by
  refine ⟨?_, ?_, ?_, ?_, ?_, ?_, ?_⟩
  · intro hlast
    have hg : s.selected.getLast hne = 0 :=
      Option.some.inj ((List.getLast?_eq_getLast s.selected hne).symm.trans hlast)
    unfold Selector.prev_account
    rw [hlast]
    dsimp only
    have hmax : max ((0 : ℤ) - 1) 0 = 0 := by decide
    rw [hmax]
    have hdecomp := List.dropLast_append_getLast hne
    rw [hg] at hdecomp
    rw [hdecomp]
  · intro t2 hnest hlast
    have hg : s.selected.getLast hne = (t2.children.length : ℤ) - 1 :=
      Option.some.inj ((List.getLast?_eq_getLast s.selected hne).symm.trans hlast)
    unfold Selector.next_account
    rw [hnest]
    dsimp only
    rw [hlast]
    dsimp only
    have hmin : min (((t2.children.length : ℤ) - 1) + 1) ((t2.children.length : ℤ) - 1)
        = (t2.children.length : ℤ) - 1 := min_eq_right (by omega)
    rw [hmin]
    have hdecomp := List.dropLast_append_getLast hne
    rw [hg] at hdecomp
    rw [hdecomp]
  · intro hlen
    unfold Selector.prev_level
    rw [if_neg (by omega)]
  · intro t2 hnest hempty
    unfold Selector.next_level
    rw [hnest]
    dsimp only
    rw [if_pos (by rw [hempty]; rfl)]
  · obtain ⟨s2, h, _, _, _⟩ := prev_account_ok s hv hne
    exact ⟨s2, h⟩
  · obtain ⟨s2, h, _, _, _⟩ := next_account_ok s hv hne
    exact ⟨s2, h⟩
  · obtain ⟨s2, h, _, _, _⟩ := next_level_ok s hv hne
    exact ⟨s2, h⟩

/-! ## C7: commit is honored only on terminal nodes -/

/-- C7: on a valid cursor, the `r` command with the cursor on a non-terminal
node leaves selector, entry and guesser untouched and does not end the loop;
on a terminal node it rewrites `postings[1]` to the resolved account path,
trains the guesser on the updated transaction and that path, and ends the
loop. -/
theorem claim_C7 (s : Selector) (entry : Txn) (ag : AccountGuess)
    (hv : validCursor s.accounts_dict s.selected = true) (hne : s.selected ≠ [])
    (hpost : 2 ≤ entry.postings.length) :
    (∀ nd, nestedFrom s.accounts_dict s.selected = some nd → nd.isRoot = false →
        commitStep s entry ag = some (s, entry, ag, false)) ∧
    (∀ nd, nestedFrom s.accounts_dict s.selected = some nd → nd.isRoot = true →
        ∃ name p1,
          getAccount s.accounts_dict s.selected = some name ∧
          pyGet entry.postings 1 = some p1 ∧
          commitStep s entry ag = some
            (s, { entry with postings := entry.postings.set 1 { p1 with account := name } },
             ag.add_txn
               { entry with postings := entry.postings.set 1 { p1 with account := name } }
               name, true) ∧
          pyGet ({ entry with
              postings := entry.postings.set 1 { p1 with account := name } }).postings 1
            = some { p1 with account := name }) := by
  constructor
  · intro nd hnest hroot
    unfold commitStep
    rw [hnest]
    dsimp only
    rw [if_neg (by rw [hroot]; exact Bool.false_ne_true)]
  · intro nd hnest hroot
    obtain ⟨ns, hns⟩ := getNames_of_valid s.selected s.accounts_dict hv
    have hga : getAccount s.accounts_dict s.selected = some ([':'].intercalate ns) := by
      unfold getAccount
      rw [hns]
      rfl
    have hlt1 : (1 : ℤ) < (entry.postings.length : ℤ) := by exact_mod_cast hpost
    obtain ⟨p1, hp1⟩ := pyGet_of_bounds entry.postings 1 (by omega) hlt1
    refine ⟨[':'].intercalate ns, p1, hga, hp1, ?_, ?_⟩
    · unfold commitStep
      rw [hnest]
      dsimp only
      rw [if_pos hroot, hga]
      dsimp only
      rw [hp1]
    · unfold pyGet
      rw [if_pos (by omega)]
      show (entry.postings.set 1 _).get? 1 = _
      rw [List.get?_eq_getElem?]
      exact List.getElem?_set_self (by omega)

/-- C7 witness: committing at the terminal `Income` node of the demo tree. -/
theorem claim_C7_witness :
    (∀ nd, nestedFrom demoTree ([1] : List ℤ) = some nd → nd.isRoot = false →
        commitStep ⟨demoTree, [1]⟩ goodTrainTxn AccountGuess.new
          = some (⟨demoTree, [1]⟩, goodTrainTxn, AccountGuess.new, false)) ∧
    (∀ nd, nestedFrom demoTree ([1] : List ℤ) = some nd → nd.isRoot = true →
        ∃ name p1,
          getAccount demoTree ([1] : List ℤ) = some name ∧
          pyGet goodTrainTxn.postings 1 = some p1 ∧
          commitStep ⟨demoTree, [1]⟩ goodTrainTxn AccountGuess.new = some
            (⟨demoTree, [1]⟩,
             { goodTrainTxn with
               postings := goodTrainTxn.postings.set 1 { p1 with account := name } },
             AccountGuess.new.add_txn
               { goodTrainTxn with
                 postings := goodTrainTxn.postings.set 1 { p1 with account := name } }
               name, true) ∧
          pyGet ({ goodTrainTxn with
              postings := goodTrainTxn.postings.set 1 { p1 with account := name } }).postings 1
            = some { p1 with account := name }) :=
  claim_C7 ⟨demoTree, [1]⟩ goodTrainTxn AccountGuess.new (by decide) (by decide) (by decide)

/-- C5 witness: the clamping facts instantiated at the demo tree's root cursor. -/
theorem claim_C5_witness :
    (([0] : List ℤ).getLast? = some 0 →
        Selector.prev_account ⟨demoTree, [0]⟩ = some ⟨demoTree, [0]⟩) ∧
    (∀ t2, nestedFrom demoTree ([0] : List ℤ).dropLast = some t2 →
        ([0] : List ℤ).getLast? = some ((t2.children.length : ℤ) - 1) →
        Selector.next_account ⟨demoTree, [0]⟩ = some ⟨demoTree, [0]⟩) ∧
    (([0] : List ℤ).length = 1 → Selector.prev_level ⟨demoTree, [0]⟩ = ⟨demoTree, [0]⟩) ∧
    (∀ t2, nestedFrom demoTree ([0] : List ℤ) = some t2 → t2.children = [] →
        Selector.next_level ⟨demoTree, [0]⟩ = some ⟨demoTree, [0]⟩) ∧
    (∃ a, Selector.prev_account ⟨demoTree, [0]⟩ = some a) ∧
    (∃ b, Selector.next_account ⟨demoTree, [0]⟩ = some b) ∧
    (∃ d, Selector.next_level ⟨demoTree, [0]⟩ = some d) :=
  claim_C5 ⟨demoTree, [0]⟩ (by decide) (by decide)

/-! ## C1: the vote accumulation of `get_account` -/

theorem hasKey_iff_mem {K V : Type} [DecidableEq K] (l : List (K × V)) (key : K) :
    hasKey l key = true ↔ key ∈ keysOf l := by
  unfold hasKey keysOf
  rw [List.any_eq_true]
  constructor
  · rintro ⟨kv, hm, hd⟩
    have hk := of_decide_eq_true hd
    exact hk ▸ List.mem_map_of_mem (fun kv => kv.1) hm
  · intro hm
    rcases List.mem_map.mp hm with ⟨kv, hkv, hk⟩
    exact ⟨kv, hkv, decide_eq_true hk⟩

theorem lookup?_incrmap_self {K : Type} [DecidableEq K] (key : K) (inc : ℚ) :
    ∀ l : List (K × ℚ), hasKey l key = true →
      lookup? (l.map (fun kv => if kv.1 = key then (kv.1, kv.2 + inc) else kv)) key
        = (lookup? l key).map (fun v => v + inc) := by
  intro l
  induction l with
  | nil => intro h; cases h
  | cons a as ih =>
    intro h
    by_cases ha : a.1 = key
    · show lookup? ((if a.1 = key then (a.1, a.2 + inc) else a) :: _) key = _
      rw [if_pos ha]
      unfold lookup?
      rw [List.find?_cons_of_pos _ (by simpa using ha),
        List.find?_cons_of_pos _ (by simpa using ha)]
      rfl
    · show lookup? ((if a.1 = key then (a.1, a.2 + inc) else a) :: _) key = _
      rw [if_neg ha]
      unfold lookup?
      rw [List.find?_cons_of_neg _ (by simpa using ha),
        List.find?_cons_of_neg _ (by simpa using ha)]
      exact ih (hasKey_cons_elim h ha)

theorem lookup?_incrmap_other {K : Type} [DecidableEq K] (key k : K) (inc : ℚ)
    (hne : k ≠ key) :
    ∀ l : List (K × ℚ),
      lookup? (l.map (fun kv => if kv.1 = key then (kv.1, kv.2 + inc) else kv)) k
        = lookup? l k := by
  intro l
  induction l with
  | nil => rfl
  | cons a as ih =>
    show lookup? ((if a.1 = key then (a.1, a.2 + inc) else a) :: _) k = _
    by_cases hak : a.1 = k
    · have ha : ¬ (a.1 = key) := by rw [hak]; exact hne
      rw [if_neg ha]
      unfold lookup?
      rw [List.find?_cons_of_pos _ (by simpa using hak),
        List.find?_cons_of_pos _ (by simpa using hak)]
    · by_cases ha : a.1 = key
      · rw [if_pos ha]
        unfold lookup?
        rw [List.find?_cons_of_neg _ (by simpa using hak),
          List.find?_cons_of_neg _ (by simpa using hak)]
        exact ih
      · rw [if_neg ha]
        unfold lookup?
        rw [List.find?_cons_of_neg _ (by simpa using hak),
          List.find?_cons_of_neg _ (by simpa using hak)]
        exact ih

theorem lookup?_of_not_hasKey {K V : Type} [DecidableEq K] (l : List (K × V)) (key : K)
    (hk : ¬ (hasKey l key = true)) : lookup? l key = none := by
  unfold lookup?
  rw [List.find?_eq_none.mpr ?_]
  · rfl
  · intro x hx hdec
    exact hk (List.any_eq_true.mpr ⟨x, hx, hdec⟩)

theorem lookup?_isSome_of_hasKey {K V : Type} [DecidableEq K] (l : List (K × V)) (key : K)
    (hk : hasKey l key = true) : ∃ v, lookup? l key = some v := by
  rcases List.any_eq_true.mp hk with ⟨kv, hkv, hdec⟩
  cases hf : l.find? (fun kv => decide (kv.1 = key)) with
  | none => exact absurd (List.find?_eq_none.mp hf kv hkv) (by simp [hdec])
  | some a => exact ⟨a.2, by unfold lookup?; rw [hf]; rfl⟩

theorem lookupD_increment_self {K : Type} [DecidableEq K] (l : List (K × ℚ)) (key : K)
    (inc : ℚ) : lookupD (increment_dict l key inc) key 0 = lookupD l key 0 + inc := by
  unfold increment_dict
  by_cases hk : hasKey l key
  · rw [if_pos hk]
    unfold lookupD
    rw [lookup?_incrmap_self key inc l hk]
    obtain ⟨v, hv⟩ := lookup?_isSome_of_hasKey l key hk
    rw [hv]
    rfl
  · rw [if_neg hk]
    unfold lookupD
    rw [lookup?_append_self key inc l hk, lookup?_of_not_hasKey l key hk]
    simp

theorem lookupD_increment_other {K : Type} [DecidableEq K] (l : List (K × ℚ)) (key k : K)
    (inc : ℚ) (hne : k ≠ key) :
    lookupD (increment_dict l key inc) k 0 = lookupD l k 0 := by
  unfold increment_dict
  by_cases hk : hasKey l key
  · rw [if_pos hk]
    unfold lookupD
    rw [lookup?_incrmap_other key k inc hne l]
  · rw [if_neg hk]
    unfold lookupD
    rw [lookup?_append_other key k inc hne l]

theorem keysOf_incrmap {K : Type} [DecidableEq K] (l : List (K × ℚ)) (key : K) (inc : ℚ) :
    keysOf (l.map (fun kv => if kv.1 = key then (kv.1, kv.2 + inc) else kv)) = keysOf l := by
  unfold keysOf
  rw [List.map_map]
  apply List.map_congr_left
  intro kv _
  by_cases ha : kv.1 = key
  · simp [ha]
  · simp [ha]

theorem nodup_increment {K : Type} [DecidableEq K] (l : List (K × ℚ)) (key : K) (inc : ℚ)
    (h : (keysOf l).Nodup) : (keysOf (increment_dict l key inc)).Nodup := by
  unfold increment_dict
  by_cases hk : hasKey l key
  · rw [if_pos hk, keysOf_incrmap]
    exact h
  · rw [if_neg hk]
    unfold keysOf
    rw [List.map_append]
    refine List.Nodup.append h (List.nodup_singleton key) ?_
    intro a ha hb
    rcases List.mem_singleton.mp hb with rfl
    exact hk ((hasKey_iff_mem l a).mpr ha)

theorem increment_ne_nil {K : Type} [DecidableEq K] (l : List (K × ℚ)) (key : K) (inc : ℚ) :
    increment_dict l key inc ≠ [] := by
  unfold increment_dict
  by_cases hk : hasKey l key
  · rw [if_pos hk]
    intro hc
    rw [List.map_eq_nil.mp hc] at hk
    cases hk
  · rw [if_neg hk]
    simp

theorem inner_fold_lookupD (len : ℚ) (acc : AccName) :
    ∀ (ws : List (AccName × ℚ)) (votes : List (AccName × ℚ)),
      (keysOf ws).Nodup →
      lookupD (ws.foldl (fun vs aw => increment_dict vs aw.1 (aw.2 * len)) votes) acc 0
        = lookupD votes acc 0 + lookupD ws acc 0 * len := by
  intro ws
  induction ws with
  | nil =>
    intro votes _
    simp [lookupD, lookup?]
  | cons aw rest ih =>
    intro votes hnd
    have hk := List.nodup_cons.mp hnd
    rw [List.foldl_cons, ih _ hk.2]
    by_cases hacc : acc = aw.1
    · subst hacc
      rw [lookupD_increment_self]
      have hz : lookupD rest aw.1 0 = 0 := by
        unfold lookupD
        rw [lookup?_of_not_hasKey rest aw.1
          (fun hc => hk.1 ((hasKey_iff_mem rest aw.1).mp hc))]
        rfl
      have hh : lookupD (aw :: rest) aw.1 0 = aw.2 := by
        unfold lookupD lookup?
        rw [List.find?_cons_of_pos _ (by simp)]
        rfl
      rw [hz, hh]
      ring
    · rw [lookupD_increment_other _ _ _ _ hacc]
      have hh : lookupD (aw :: rest) acc 0 = lookupD rest acc 0 := by
        unfold lookupD lookup?
        rw [List.find?_cons_of_neg _ (by simpa using fun h : aw.1 = acc => hacc h.symm)]
      rw [hh]

theorem inner_fold_nodup (len : ℚ) :
    ∀ (ws votes : List (AccName × ℚ)), (keysOf votes).Nodup →
      (keysOf (ws.foldl (fun vs aw => increment_dict vs aw.1 (aw.2 * len)) votes)).Nodup := by
  intro ws
  induction ws with
  | nil => intro votes h; exact h
  | cons aw rest ih =>
    intro votes h
    rw [List.foldl_cons]
    exact ih _ (nodup_increment _ _ _ h)

theorem inner_fold_ne_nil (len : ℚ) :
    ∀ (ws votes : List (AccName × ℚ)), (votes ≠ [] ∨ ws ≠ []) →
      ws.foldl (fun vs aw => increment_dict vs aw.1 (aw.2 * len)) votes ≠ [] := by
  intro ws
  induction ws with
  | nil =>
    intro votes h
    rcases h with h | h
    · exact h
    · exact absurd rfl h
  | cons aw rest ih =>
    intro votes _
    rw [List.foldl_cons]
    exact ih _ (Or.inl (increment_ne_nil _ _ _))

theorem keysOf_get {g : GuessItem} (h : WFItem g) :
    (keysOf g.get).Nodup := by
  rw [get_eq_map h]
  unfold keysOf
  rw [List.map_map]
  exact h.1

theorem get_ne_nil {g : GuessItem} (h : WFItem g) (hne : g.account_dict ≠ []) :
    g.get ≠ [] := by
  rw [get_eq_map h]
  intro hc
  exact hne (List.map_eq_nil_iff.mp hc)

theorem outer_fold_lookupD (ag : AccountGuess) (hwf : WFGuess ag) (acc : AccName) :
    ∀ (items : List String) (votes : List (AccName × ℚ)),
      lookupD (items.foldl (fun votes item =>
          match ag.save_dict.find? (fun kv => decide (kv.1 = item)) with
          | none => votes
          | some kv => kv.2.get.foldl
              (fun vs aw => increment_dict vs aw.1 (aw.2 * (item.length : ℚ))) votes) votes)
        acc 0
      = lookupD votes acc 0 + ((items.map (fun item =>
          match ag.save_dict.find? (fun kv => decide (kv.1 = item)) with
          | none => 0
          | some kv => lookupD kv.2.get acc 0 * (item.length : ℚ))).sum) := by
  intro items
  induction items with
  | nil => intro votes; simp
  | cons item rest ih =>
    intro votes
    rw [List.foldl_cons, List.map_cons, List.sum_cons]
    cases hf : ag.save_dict.find? (fun kv => decide (kv.1 = item)) with
    | none =>
      rw [ih]
      ring
    | some kv =>
      have hkv := List.mem_of_find?_eq_some hf
      have hwfi := (hwf.2 kv hkv).1
      have hin := inner_fold_lookupD (item.length : ℚ) acc kv.2.get votes (keysOf_get hwfi)
      rw [ih, hin]
      ring

theorem outer_fold_nodup (ag : AccountGuess) :
    ∀ (items : List String) (votes : List (AccName × ℚ)), (keysOf votes).Nodup →
      (keysOf (items.foldl (fun votes item =>
          match ag.save_dict.find? (fun kv => decide (kv.1 = item)) with
          | none => votes
          | some kv => kv.2.get.foldl
              (fun vs aw => increment_dict vs aw.1 (aw.2 * (item.length : ℚ))) votes)
        votes)).Nodup := by
  intro items
  induction items with
  | nil => intro votes h; exact h
  | cons item rest ih =>
    intro votes h
    rw [List.foldl_cons]
    cases hf : ag.save_dict.find? (fun kv => decide (kv.1 = item)) with
    | none => exact ih votes h
    | some kv => exact ih _ (inner_fold_nodup _ kv.2.get votes h)

theorem outer_fold_ne_nil (ag : AccountGuess) :
    ∀ (items : List String) (votes : List (AccName × ℚ)), votes ≠ [] →
      items.foldl (fun votes item =>
          match ag.save_dict.find? (fun kv => decide (kv.1 = item)) with
          | none => votes
          | some kv => kv.2.get.foldl
              (fun vs aw => increment_dict vs aw.1 (aw.2 * (item.length : ℚ))) votes)
        votes ≠ [] := by
  intro items
  induction items with
  | nil => intro votes h; exact h
  | cons item rest ih =>
    intro votes h
    rw [List.foldl_cons]
    cases hf : ag.save_dict.find? (fun kv => decide (kv.1 = item)) with
    | none => exact ih votes h
    | some kv => exact ih _ (inner_fold_ne_nil _ kv.2.get votes (Or.inl h))

theorem outer_fold_ne_nil_of_found (ag : AccountGuess) (hwf : WFGuess ag) :
    ∀ (items : List String) (votes : List (AccName × ℚ)),
      (∃ item ∈ items, ∃ kv,
          ag.save_dict.find? (fun kv => decide (kv.1 = item)) = some kv) →
      items.foldl (fun votes item =>
          match ag.save_dict.find? (fun kv => decide (kv.1 = item)) with
          | none => votes
          | some kv => kv.2.get.foldl
              (fun vs aw => increment_dict vs aw.1 (aw.2 * (item.length : ℚ))) votes)
        votes ≠ [] := by
  intro items
  induction items with
  | nil =>
    rintro votes ⟨item, hmem, _⟩
    cases hmem
  | cons item rest ih =>
    rintro votes ⟨item2, hmem, kv2, hfound⟩
    rw [List.foldl_cons]
    cases hf : ag.save_dict.find? (fun kv => decide (kv.1 = item)) with
    | none =>
      rcases List.mem_cons.mp hmem with rfl | hmem2
      · rw [hf] at hfound
        cases hfound
      · exact ih votes ⟨item2, hmem2, kv2, hfound⟩
    | some kv =>
      have hkvmem := List.mem_of_find?_eq_some hf
      have hgetne : kv.2.get ≠ [] :=
        get_ne_nil (hwf.2 kv hkvmem).1 (hwf.2 kv hkvmem).2
      exact outer_fold_ne_nil ag rest _ (inner_fold_ne_nil _ kv.2.get votes (Or.inr hgetne))

theorem outer_fold_id_of_none (ag : AccountGuess) :
    ∀ (items : List String) (votes : List (AccName × ℚ)),
      (∀ item ∈ items, ag.save_dict.find? (fun kv => decide (kv.1 = item)) = none) →
      items.foldl (fun votes item =>
          match ag.save_dict.find? (fun kv => decide (kv.1 = item)) with
          | none => votes
          | some kv => kv.2.get.foldl
              (fun vs aw => increment_dict vs aw.1 (aw.2 * (item.length : ℚ))) votes)
        votes = votes := by
  intro items
  induction items with
  | nil => intro votes _; rfl
  | cons item rest ih =>
    intro votes hall
    rw [List.foldl_cons]
    rw [hall item (List.mem_cons_self _ _)]
    exact ih votes (fun it hit => hall it (List.mem_cons_of_mem _ hit))

theorem pickMax_left_le (best p : AccName × ℚ) : best.2 ≤ (pickMax best p).2 := by
  unfold pickMax
  by_cases hc : best.2 < p.2
  · rw [if_pos hc]
    exact le_of_lt hc
  · rw [if_neg hc]

theorem pickMax_right_le (best p : AccName × ℚ) : p.2 ≤ (pickMax best p).2 := by
  unfold pickMax
  by_cases hc : best.2 < p.2
  · rw [if_pos hc]
  · rw [if_neg hc]
    exact le_of_not_lt hc

theorem pickMax_mem (best p : AccName × ℚ) {l : List (AccName × ℚ)}
    (hb : best ∈ l) (hp : p ∈ l) : pickMax best p ∈ l := by
  unfold pickMax
  by_cases hc : best.2 < p.2
  · rw [if_pos hc]
    exact hp
  · rw [if_neg hc]
    exact hb

theorem foldl_max_spec :
    ∀ (rest : List (AccName × ℚ)) (kv : AccName × ℚ),
      (rest.foldl pickMax kv) ∈ kv :: rest ∧
      ∀ p ∈ kv :: rest, p.2 ≤ (rest.foldl pickMax kv).2 := by
  intro rest
  induction rest with
  | nil =>
    intro kv
    refine ⟨List.mem_singleton.mpr rfl, ?_⟩
    intro p hp
    rcases List.mem_singleton.mp hp with rfl
    exact le_refl _
  | cons q rest ih =>
    intro kv
    rw [List.foldl_cons]
    obtain ⟨hmem, hle⟩ := ih (pickMax kv q)
    have hb2 : pickMax kv q ∈ kv :: q :: rest :=
      pickMax_mem kv q (List.mem_cons_self _ _)
        (List.mem_cons_of_mem _ (List.mem_cons_self _ _))
    constructor
    · rcases List.mem_cons.mp hmem with he | hm
      · rw [he]
        exact hb2
      · exact List.mem_cons_of_mem _ (List.mem_cons_of_mem _ hm)
    · intro p hp
      have hbase := hle (pickMax kv q) (List.mem_cons_self _ _)
      rcases List.mem_cons.mp hp with rfl | hp2
      · exact le_trans (pickMax_left_le p q) hbase
      rcases List.mem_cons.mp hp2 with rfl | hp3
      · exact le_trans (pickMax_right_le kv p) hbase
      · exact hle p (List.mem_cons_of_mem _ hp3)

theorem pyMaxKey_none_iff (votes : List (AccName × ℚ)) :
    pyMaxKey votes = none ↔ votes = [] := by
  cases votes with
  | nil => exact ⟨fun _ => rfl, fun _ => rfl⟩
  | cons kv rest =>
    constructor
    · intro h
      cases h
    · intro h
      cases h

theorem pyMaxKey_some_spec (votes : List (AccName × ℚ)) (acc : AccName)
    (h : pyMaxKey votes = some acc) :
    ∃ p, p ∈ votes ∧ p.1 = acc ∧ ∀ q ∈ votes, q.2 ≤ p.2 := by
  cases votes with
  | nil => cases h
  | cons kv rest =>
    unfold pyMaxKey at h
    dsimp only at h
    obtain ⟨hmem, hle⟩ := foldl_max_spec rest kv
    exact ⟨rest.foldl pickMax kv, hmem, Option.some.inj h, hle⟩

/-- C1: the vote tally of `get_account` assigns every account the sum, over
terms with a known `GuessItem`, of `weight * len(term)`; the result is `None`
exactly when no term of the transaction matches a trained term, and otherwise
it is an account whose accumulated vote is maximal. -/
theorem claim_C1 (ag : AccountGuess) (txn : Txn) (hwf : WFGuess ag) :
    (∀ acc, lookupD (ag.computeVotes txn) acc 0 = specVote ag txn acc) ∧
    (ag.get_account txn = none ↔
      ∀ item ∈ item_gen txn,
        ag.save_dict.find? (fun kv => decide (kv.1 = item)) = none) ∧
    (∀ acc, ag.get_account txn = some acc →
        ∃ p, p ∈ ag.computeVotes txn ∧ p.1 = acc ∧
          lookupD (ag.computeVotes txn) acc 0 = p.2 ∧
          ∀ q ∈ ag.computeVotes txn, q.2 ≤ p.2) := by
  refine ⟨?_, ?_, ?_⟩
  · intro acc
    unfold AccountGuess.computeVotes specVote
    rw [outer_fold_lookupD ag hwf acc (item_gen txn) []]
    simp [lookupD, lookup?]
  · unfold AccountGuess.get_account
    rw [pyMaxKey_none_iff]
    constructor
    · intro hnil item hitem
      by_contra hne
      cases hf : ag.save_dict.find? (fun kv => decide (kv.1 = item)) with
      | none => exact hne hf
      | some kv =>
        exact outer_fold_ne_nil_of_found ag hwf (item_gen txn) []
          ⟨item, hitem, kv, hf⟩ hnil
    · intro hall
      unfold AccountGuess.computeVotes
      exact outer_fold_id_of_none ag (item_gen txn) [] hall
  · intro acc hsome
    obtain ⟨p, hmem, hp1, hle⟩ := pyMaxKey_some_spec (ag.computeVotes txn) acc hsome
    refine ⟨p, hmem, hp1, ?_, hle⟩
    have hnodup : (keysOf (ag.computeVotes txn)).Nodup := by
      unfold AccountGuess.computeVotes
      exact outer_fold_nodup ag (item_gen txn) [] (by simp [keysOf])
    have hfind := find?_eq_of_mem_nodup hnodup hmem
    rw [hp1] at hfind
    unfold lookupD lookup?
    rw [hfind]
    rfl

/-- C1 witness: the spec-vote identity, the emptiness criterion and the
maximality of the result on the trained Starbucks guesser. -/
theorem claim_C1_witness :
    (∀ acc, lookupD (starbucksGuess.computeVotes starbucksTxn) acc 0
        = specVote starbucksGuess starbucksTxn acc) ∧
    (starbucksGuess.get_account starbucksTxn = none ↔
      ∀ item ∈ item_gen starbucksTxn,
        starbucksGuess.save_dict.find? (fun kv => decide (kv.1 = item)) = none) ∧
    (∀ acc, starbucksGuess.get_account starbucksTxn = some acc →
        ∃ p, p ∈ starbucksGuess.computeVotes starbucksTxn ∧ p.1 = acc ∧
          lookupD (starbucksGuess.computeVotes starbucksTxn) acc 0 = p.2 ∧
          ∀ q ∈ starbucksGuess.computeVotes starbucksTxn, q.2 ≤ p.2) :=
  claim_C1 starbucksGuess starbucksTxn (by decide)

end BeanPick
